import Mathlib

/-!
Verification of the specifyplus-mcp-server core (loader, registry, watcher,
handler) against its natural-language specification.

Strings are modelled as `List Char` (Python `str` is a sequence of code
points; Lean `Char` is a unicode scalar value, which covers every value the
program manipulates).  Machine integers do not occur: Python integers are
unbounded, modelled by `Nat`.  Python exceptions are modelled by `Except`
with explicit error payloads.  Every definition is translated from the
repository source (`src/handler.py`, `src/registry.py`, `src/loader.py`,
`src/validators.py`, `src/watcher.py`, `src/exceptions.py`, `src/models.py`)
except where a doc comment says that a third-party library boundary
(`frontmatter`, `yaml`, `pydantic`, the OS file system and clock) is
represented by an abstract outcome.
-/

/-- Python `text.replace(pat, repl)` for a non-empty pattern `pat`:
scan left to right; at each position, if `pat` is a prefix, emit `repl`
and continue after the matched occurrence, otherwise copy one character.
Used by `PromptHandler.sanitize_input` (handler.py line 59) and by
`PromptHandler.process_prompt` (handler.py line 112). -/
def replaceAll (pat repl : List Char) (s : List Char) : List Char :=
  match s with
  | [] => []
  | c :: rest =>
    if pat.isPrefixOf (c :: rest) then
      repl ++ replaceAll pat repl (rest.drop (pat.length - 1))
    else
      c :: replaceAll pat repl rest
termination_by s.length
decreasing_by
  · simp only [List.length_cons, List.length_drop]
    omega
  · simp only [List.length_cons]
    omega

/-- Python `pat in s` (literal substring test): some position of `s` starts
with `pat`.  Used by `CommandLoader.parse_command_file` (loader.py line 95)
to compute `has_arguments`. -/
def occursIn (pat : List Char) (s : List Char) : Bool :=
  match s with
  | [] => pat.isEmpty
  | c :: rest => pat.isPrefixOf (c :: rest) || occursIn pat rest

/-- Whether the regular expression `\$\{([^}]+)\}` of handler.py line 63
matches at the start of `s`: a `$`, then `{`, then at least one character
other than `}` (the greedy `[^}]+` takes every character up to the first
`}`), then a closing `}`. -/
def braceAt (s : List Char) : Bool :=
  decide (s.head? = some '$') && decide ((s.drop 1).head? = some '{') &&
    (let inner := (s.drop 2).takeWhile (fun x => x != '}')
     !inner.isEmpty && decide (inner.length < (s.drop 2).length))

/-- Python `re.sub(r"\$\{([^}]+)\}", r"\\${\1}", s)` (handler.py line 63):
scan left to right; where the pattern matches, emit a backslash followed by
the matched text (`\${inner}`) and continue after the match; otherwise copy
one character. -/
def subDollarBrace (s : List Char) : List Char :=
  match s with
  | [] => []
  | c :: rest =>
    if braceAt (c :: rest) then
      let inner := (rest.drop 1).takeWhile (fun x => x != '}')
      '\\' :: '$' :: '{' :: (inner ++ '}' :: subDollarBrace (rest.drop (inner.length + 2)))
    else
      c :: subDollarBrace rest
termination_by s.length
decreasing_by
  · simp only [List.length_cons, List.length_drop]
    omega
  · simp only [List.length_cons]
    omega

/-- Some position of `s` matches the regular expression `\$\{([^}]+)\}`. -/
def hasBraceToken (s : List Char) : Bool :=
  match s with
  | [] => false
  | c :: rest => braceAt (c :: rest) || hasBraceToken rest

/-- Number of bytes of the UTF-8 encoding of one code point, as computed by
Python `len(ch.encode("utf-8"))`. -/
def utf8CharLen (c : Char) : Nat :=
  if c.toNat < 128 then 1
  else if c.toNat < 2048 then 2
  else if c.toNat < 65536 then 3
  else 4

/-- Python `len(text.encode("utf-8"))` (handler.py line 99): total number of
UTF-8 bytes of the text. -/
def utf8Length (s : List Char) : Nat :=
  (s.map utf8CharLen).sum

/-- Code-point lexicographic comparison of character lists; this is the
order Python `sorted` uses on `str` (registry.py line 57 sorts the command
names). -/
def charsLe (a b : List Char) : Bool :=
  match a, b with
  | [], _ => true
  | _ :: _, [] => false
  | x :: xs, y :: ys => if x = y then charsLe xs ys else decide (x < y)

/-- Code-point lexicographic comparison of strings, as used by Python
`sorted` on `str`. -/
def strLe (a b : String) : Bool :=
  charsLe a.toList b.toList

/-- Insert a string into a list sorted by `strLe`, keeping it sorted. -/
def insertSorted (s : String) (l : List String) : List String :=
  match l with
  | [] => [s]
  | t :: ts => if strLe s t then s :: t :: ts else t :: insertSorted s ts

/-- Python `sorted` on a list of strings (the result is the unique
permutation sorted by the code-point lexicographic order, so any sorting
algorithm models it). -/
def sortStrings (l : List String) : List String :=
  match l with
  | [] => []
  | s :: ss => insertSorted s (sortStrings ss)

/-- models.py `HandoffLink`: a workflow handoff link from YAML frontmatter. -/
structure HandoffLink where
  label : String
  agent : String
  handoffText : String
  send : Bool
  deriving DecidableEq

/-- models.py `CommandMetadata`: validated YAML frontmatter of a command
file (required `description`, optional `handoffs`). -/
structure CommandMetadata where
  description : String
  handoffs : List HandoffLink
  deriving DecidableEq

/-- models.py `CommandDefinition`: a command loaded from one `.md` file.
`content` is the markdown body after the frontmatter; `last_modified` is
the file's modification timestamp (an abstract natural number; the program
only stores it). -/
structure CommandDefinition where
  name : String
  file_path : String
  metadata : CommandMetadata
  content : List Char
  has_arguments : Bool
  file_size : Nat
  last_modified : Nat
  deriving DecidableEq

/-- exceptions.py `CommandParseError`: carries the file path and the
underlying parse error message. -/
structure CommandParseError where
  file_path : String
  parse_error : String
  deriving DecidableEq

/-- The two typed errors `PromptHandler.process_prompt` can raise
(exceptions.py `CommandNotFoundError`, `InputTooLargeError`), with the
payloads their constructors store. -/
inductive ProcessError where
  | commandNotFound (command_name : String) (available_commands : List String)
  | inputTooLarge (size : Nat) (max_size : Nat)
  deriving DecidableEq

deriving instance DecidableEq for Except

/-- models.py / validators.py `MAX_INPUT_SIZE_BYTES = 102_400`. -/
def MAX_INPUT_SIZE_BYTES : Nat := 102400

/-- The character class `[a-zA-Z]` of validators.py line 16. -/
def isLetter (c : Char) : Bool :=
  ('a' ≤ c && c ≤ 'z') || ('A' ≤ c && c ≤ 'Z')

/-- The character class `[a-zA-Z0-9._-]` of validators.py line 16. -/
def isNameChar (c : Char) : Bool :=
  isLetter c || ('0' ≤ c && c ≤ '9') || c == '.' || c == '_' || c == '-'

/-- Whether a (whitespace-trimmed) name matches the regular expression
`^[a-zA-Z][a-zA-Z0-9._-]*$` of validators.py line 16.  (`re.match` anchors
at the start, and after trimming there is no trailing newline, so `$` is
end of string.) -/
def matchesNamePattern (s : List Char) : Bool :=
  match s with
  | [] => false
  | c :: rest => isLetter c && rest.all isNameChar

/-- Python `str.strip()`: remove whitespace from both ends (the names the
program produces contain only ASCII whitespace, covered by
`Char.isWhitespace`). -/
def pyStrip (s : List Char) : List Char :=
  ((s.dropWhile Char.isWhitespace).reverse.dropWhile Char.isWhitespace).reverse

/-- validators.py `validate_command_name` (lines 19-64): trim whitespace,
reject the empty name, reject path separators, reject names failing the
pattern; return the trimmed name. -/
def validate_command_name (name : String) : Except String String :=
  let trimmed := pyStrip name.toList
  if trimmed.isEmpty then
    .error "Command name cannot be empty"
  else if trimmed.contains '/' || trimmed.contains '\\' then
    .error "Command name cannot contain path separators"
  else if !matchesNamePattern trimmed then
    .error "Invalid command name format"
  else
    .ok (String.mk trimmed)

/-- Outcome of the frontmatter phase of `parse_command_file` for one file:
`frontmatter.load` plus `validate_yaml_frontmatter` plus the
`CommandMetadata` construction.  The frontmatter and YAML libraries are
outside the repository, so this phase is represented by its outcome:
either validated metadata, a raised `CommandParseError` message
(validators.py lines 96-152), a raised `yaml.YAMLError` message, or any
other raised exception message. -/
inductive FrontOutcome where
  | ok (meta : CommandMetadata)
  | metaError (msg : String)
  | yamlError (msg : String)
  | loadError (msg : String)
  deriving DecidableEq

/-- One candidate `*.md` file as `parse_command_file` sees it: its path,
its stem (`file_path.stem`), the outcome of the frontmatter phase, the body
content, and the `stat` snapshot. -/
structure SrcFile where
  file_path : String
  stem : String
  front : FrontOutcome
  content : List Char
  file_size : Nat
  mtime : Nat
  deriving DecidableEq

/-- The literal placeholder token `$ARGUMENTS`. -/
def argumentsToken : List Char := "$ARGUMENTS".toList

/-- The escaped form `\$ARGUMENTS` substituted by `sanitize_input`. -/
def escapedArguments : List Char := "\\$ARGUMENTS".toList

/-- loader.py `CommandLoader.parse_command_file` (lines 61-133): run the
frontmatter phase, validate the command name derived from the file stem,
compute `has_arguments` by literal substring search, and build the
`CommandDefinition`; every raised exception is converted to
`CommandParseError` (a `CommandParseError` is re-raised as is, a
`yaml.YAMLError` becomes `YAML parsing error: ...`, anything else —
including the `ValueError` from `validate_command_name` — becomes
`Unexpected error: ...`). -/
def parse_command_file (f : SrcFile) : Except CommandParseError CommandDefinition :=
  match f.front with
  | .metaError m => .error ⟨f.file_path, m⟩
  | .yamlError m => .error ⟨f.file_path, "YAML parsing error: " ++ m⟩
  | .loadError m => .error ⟨f.file_path, "Unexpected error: " ++ m⟩
  | .ok meta =>
    match validate_command_name f.stem with
    | .error m => .error ⟨f.file_path, "Unexpected error: " ++ m⟩
    | .ok n =>
      .ok { name := n
            file_path := f.file_path
            metadata := meta
            content := f.content
            has_arguments := occursIn argumentsToken f.content
            file_size := f.file_size
            last_modified := f.mtime }

/-- The in-memory registry map `CommandRegistry._registry`: a Python dict
from command name to definition, modelled as an association list with
unique keys (lookup takes the first, and only, binding of a key). -/
abbrev RegistryMap := List (String × CommandDefinition)

/-- Python dict assignment `commands[name] = definition` (loader.py line
152): overwrite the binding in place if the key exists, else append. -/
def dictInsert (k : String) (v : CommandDefinition) (m : RegistryMap) : RegistryMap :=
  match m with
  | [] => [(k, v)]
  | (k1, v1) :: rest =>
    if k1 = k then (k, v) :: rest else (k1, v1) :: dictInsert k v rest

/-- The accumulating loop of `CommandLoader.load_all_commands` (loader.py
lines 148-159): parse each file; on success store it under its name; on
`CommandParseError` log a warning and continue with the next file. -/
def load_all_loop (acc : RegistryMap) (files : List SrcFile) : RegistryMap :=
  match files with
  | [] => acc
  | f :: fs =>
    match parse_command_file f with
    | .ok d => load_all_loop (dictInsert d.name d acc) fs
    | .error _ => load_all_loop acc fs

/-- loader.py `CommandLoader.load_all_commands` (lines 135-162), applied to
the discovered files in directory order. -/
def load_all_commands (files : List SrcFile) : RegistryMap :=
  load_all_loop [] files

/-- registry.py `CommandRegistry.get` (lines 38-48): `self._registry.get(name)`. -/
def registry_get (reg : RegistryMap) (name : String) : Option CommandDefinition :=
  List.lookup name reg

/-- registry.py `CommandRegistry.list_commands` (lines 50-57):
`sorted(self._registry.keys())`. -/
def list_commands (reg : RegistryMap) : List String :=
  sortStrings (reg.map Prod.fst)

/-- registry.py `CommandRegistry.update_all` (lines 59-73): replace the
whole registry contents with `dict(commands)` (a value copy of the given
map), in one assignment under the lock. -/
def update_all (_reg : RegistryMap) (commands : RegistryMap) : RegistryMap :=
  commands

/-- registry.py `CommandRegistry.count` (lines 82-89): `len(self._registry)`. -/
def registry_count (reg : RegistryMap) : Nat :=
  reg.length

/-- One registry operation.  Every operation of `CommandRegistry` acquires
the single reentrant lock, so a concurrent execution is equivalent to some
serial interleaving of the threads' operations; `updateAll` is one
operation, hence one step of that interleaving. -/
inductive RegOp where
  | updateAll (m : RegistryMap)
  | readGet (name : String)
  | readList
  | readCount
  deriving DecidableEq

/-- Whether an operation only reads the registry. -/
def RegOp.isRead : RegOp → Bool
  | .updateAll _ => false
  | _ => true

/-- State transition of one serialized registry operation. -/
def regStep (st : RegistryMap) (op : RegOp) : RegistryMap :=
  match op with
  | .updateAll m => update_all st m
  | _ => st

/-- All registry states a serialized trace passes through (including the
state each operation observes when it runs, and the final state). -/
def runStates (st : RegistryMap) (ops : List RegOp) : List RegistryMap :=
  match ops with
  | [] => [st]
  | op :: rest => st :: runStates (regStep st op) rest

/-- All interleavings of two threads' operation sequences (each thread's
own order is preserved). -/
def interleavings (xs ys : List RegOp) : List (List RegOp) :=
  match xs, ys with
  | [], ys => [ys]
  | xs, [] => [xs]
  | x :: xs, y :: ys =>
    (interleavings xs (y :: ys)).map (fun l => x :: l) ++
      (interleavings (x :: xs) ys).map (fun l => y :: l)
termination_by xs.length + ys.length

/-- handler.py `PromptHandler.sanitize_input` (lines 38-65): first replace
every literal `$ARGUMENTS` with `\$ARGUMENTS`, then apply
`re.sub(r"\$\{([^}]+)\}", r"\\${\1}", ...)`. -/
def sanitize_input (text : List Char) : List Char :=
  subDollarBrace (replaceAll argumentsToken escapedArguments text)

/-- handler.py `PromptHandler.process_prompt` (lines 67-126): look up the
command (absent raises `CommandNotFoundError` with the sorted name list);
if input is provided, check its UTF-8 byte size against
`MAX_INPUT_SIZE_BYTES` (too large raises `InputTooLargeError`); then
substitute the sanitized input for `$ARGUMENTS` when the command has the
placeholder and input was provided, else return the content unchanged. -/
def process_prompt (reg : RegistryMap) (command_name : String)
    (user_input : Option (List Char)) : Except ProcessError (List Char) :=
  match registry_get reg command_name with
  | none => .error (.commandNotFound command_name (list_commands reg))
  | some cmd =>
    match user_input with
    | some s =>
      if utf8Length s > MAX_INPUT_SIZE_BYTES then
        .error (.inputTooLarge (utf8Length s) MAX_INPUT_SIZE_BYTES)
      else if cmd.has_arguments then
        .ok (replaceAll argumentsToken (sanitize_input s) cmd.content)
      else
        .ok cmd.content
    | none => .ok cmd.content

/-- State of watcher.py `CommandFileHandler` relevant to debouncing:
`_last_reload_time`, the pending `threading.Timer` (represented by its
absolute fire time), and the accumulated list of callback invocation
times.  Time is in abstract integral units (e.g. milliseconds). -/
structure WatcherState where
  lastReload : Nat
  timer : Option Nat
  fires : List Nat
  deriving DecidableEq

/-- Initial handler state (`_last_reload_time = 0.0`, no timer,
watcher.py lines 61-63). -/
def watcherInit : WatcherState := { lastReload := 0, timer := none, fires := [] }

/-- A pending timer whose fire time has been reached runs before the next
filesystem event is handled: the timer thread invokes the callback, clears
the timer and sets `_last_reload_time` to the fire time
(`trigger_and_clear`, watcher.py lines 71-77). -/
def fireDueTimer (st : WatcherState) (now : Nat) : WatcherState :=
  match st.timer with
  | some f =>
    if f ≤ now then
      { lastReload := f, timer := none, fires := st.fires ++ [f] }
    else st
  | none => st

/-- watcher.py `_trigger_immediate_reload` (lines 83-103) for one
qualifying event at time `t`, after any due timer has run: if at least the
debounce window `w` has elapsed since the last reload, invoke the callback
now, record the time and cancel any pending timer; otherwise (re)arm the
single timer to fire `w` from now (`_schedule_reload`, lines 65-81).
The comparison `lastReload + w ≤ t` is Python's
`t - lastReload >= w` (times only move forward, and `w > 0`). -/
def handleEvent (w : Nat) (st : WatcherState) (t : Nat) : WatcherState :=
  let st := fireDueTimer st t
  if st.lastReload + w ≤ t then
    { lastReload := t, timer := none, fires := st.fires ++ [t] }
  else
    { st with timer := some (t + w) }

/-- Process a time-ordered list of qualifying filesystem events. -/
def runWatcher (w : Nat) (st : WatcherState) (events : List Nat) : WatcherState :=
  match events with
  | [] => st
  | t :: ts => runWatcher w (handleEvent w st t) ts

/-- After the last event, let a still-pending timer fire at its scheduled
time. -/
def flushTimer (st : WatcherState) : WatcherState :=
  match st.timer with
  | some f => { lastReload := f, timer := none, fires := st.fires ++ [f] }
  | none => st

/-- Full debounce run: initial state with a given last-reload time, the
events, then the trailing timer. -/
def watcherRun (w : Nat) (lastReload0 : Nat) (events : List Nat) : WatcherState :=
  flushTimer (runWatcher w { lastReload := lastReload0, timer := none, fires := [] } events)

/-- Metadata fixture for the concrete examples below. -/
def demoMeta : CommandMetadata := { description := "demo", handoffs := [] }

/-- A registered command whose body contains the placeholder (the
sanitize-then-substitute example of the specification). -/
def demoUseCmd : CommandDefinition :=
  { name := "use"
    file_path := "/cmds/use.md"
    metadata := demoMeta
    content := "Use $ARGUMENTS".toList
    has_arguments := true
    file_size := 14
    last_modified := 1 }

/-- A registered command whose body has no placeholder. -/
def demoStaticCmd : CommandDefinition :=
  { name := "static"
    file_path := "/cmds/static.md"
    metadata := demoMeta
    content := "Static template without placeholders".toList
    has_arguments := false
    file_size := 36
    last_modified := 1 }

/-- A two-command registry fixture. -/
def demoRegistry : RegistryMap := [("use", demoUseCmd), ("static", demoStaticCmd)]

/-- A well-formed source file fixture (stem `sp.specify`, valid
frontmatter). -/
def demoGoodFile : SrcFile :=
  { file_path := "/cmds/sp.specify.md"
    stem := "sp.specify"
    front := .ok demoMeta
    content := "Spec $ARGUMENTS".toList
    file_size := 15
    mtime := 2 }

/-- A malformed source file fixture: its frontmatter validation raised
`CommandParseError` (missing `description`). -/
def demoBadFile : SrcFile :=
  { file_path := "/cmds/broken.md"
    stem := "broken"
    front := .metaError "Missing required field description"
    content := "body".toList
    file_size := 4
    mtime := 3 }

/-- The record `load_all_commands` produces for `demoGoodFile`. -/
def demoLoadedSpecify : CommandDefinition :=
  { name := "sp.specify"
    file_path := "/cmds/sp.specify.md"
    metadata := demoMeta
    content := "Spec $ARGUMENTS".toList
    has_arguments := true
    file_size := 15
    last_modified := 2 }

theorem isPrefixOf_append_self (l b : List Char) : l.isPrefixOf (l ++ b) = true := by
  induction l with
  | nil => cases b <;> rfl
  | cons x xs ih => simp [List.isPrefixOf, ih]

theorem replaceAll_of_not_occurs (pat repl s : List Char)
    (h : occursIn pat s = false) : replaceAll pat repl s = s := by
  induction s with
  | nil => simp [replaceAll]
  | cons c rest ih =>
    simp only [occursIn, Bool.or_eq_false_iff] at h
    simp only [replaceAll, h.1, Bool.false_eq_true, if_false]
    exact congrArg (c :: ·) (ih h.2)

theorem replaceAll_append_left (hd : Char) (pt repl a s : List Char)
    (h : hd ∉ a) :
    replaceAll (hd :: pt) repl (a ++ s) = a ++ replaceAll (hd :: pt) repl s := by
  induction a with
  | nil => rfl
  | cons c a2 ih =>
    have hne : (hd == c) = false := by
      simp only [beq_eq_false_iff_ne, ne_eq]
      intro hc
      exact h (hc ▸ List.mem_cons_self c a2)
    simp only [List.cons_append, replaceAll, List.isPrefixOf, hne,
      Bool.false_and, Bool.false_eq_true, if_false]
    exact congrArg (c :: ·) (ih (fun hm => h (List.mem_cons_of_mem c hm)))

theorem replaceAll_at_occurrence (hd : Char) (pt repl b : List Char) :
    replaceAll (hd :: pt) repl ((hd :: pt) ++ b) =
      repl ++ replaceAll (hd :: pt) repl b := by
  have hp := isPrefixOf_append_self (hd :: pt) b
  simp only [List.cons_append] at hp ⊢
  simp only [replaceAll, hp, if_true, List.length_cons, Nat.add_sub_cancel,
    List.drop_left]

theorem braceAt_cons_of_ne (c : Char) (l : List Char) (h : c ≠ '$') :
    braceAt (c :: l) = false := by
  simp [braceAt, h]

theorem subDollarBrace_of_no_token (s : List Char)
    (h : hasBraceToken s = false) : subDollarBrace s = s := by
  induction s with
  | nil => simp [subDollarBrace]
  | cons c rest ih =>
    simp only [hasBraceToken, Bool.or_eq_false_iff] at h
    simp only [subDollarBrace, h.1, Bool.false_eq_true, if_false]
    exact congrArg (c :: ·) (ih h.2)

theorem subDollarBrace_append_left (a s : List Char) (h : '$' ∉ a) :
    subDollarBrace (a ++ s) = a ++ subDollarBrace s := by
  induction a with
  | nil => rfl
  | cons c a2 ih =>
    have hc : c ≠ '$' := fun hc => h (hc ▸ List.mem_cons_self c a2)
    simp only [List.cons_append, subDollarBrace,
      braceAt_cons_of_ne c _ hc, Bool.false_eq_true, if_false]
    exact congrArg (c :: ·) (ih (fun hm => h (List.mem_cons_of_mem c hm)))

theorem takeWhile_inner_brace (inner b : List Char)
    (h : ∀ x ∈ inner, x ≠ '}') :
    (inner ++ '}' :: b).takeWhile (fun x => x != '}') = inner := by
  induction inner with
  | nil => simp [List.takeWhile_cons]
  | cons x xs ih =>
    have hx : (x != '}') = true := by
      simpa using h x (List.mem_cons_self x xs)
    simp only [List.cons_append, List.takeWhile_cons, hx, if_true]
    exact congrArg (x :: ·) (ih (fun y hy => h y (List.mem_cons_of_mem x hy)))

theorem drop_inner_brace (inner b : List Char) :
    (inner ++ '}' :: b).drop (inner.length + 1) = b := by
  induction inner with
  | nil => rfl
  | cons x xs ih => simp [List.drop, ih]

theorem subDollarBrace_at_occurrence (inner b : List Char)
    (h1 : inner ≠ []) (h2 : ∀ x ∈ inner, x ≠ '}') :
    subDollarBrace ('$' :: '{' :: (inner ++ '}' :: b)) =
      '\\' :: '$' :: '{' :: (inner ++ '}' :: subDollarBrace b) := by
  have htw := takeWhile_inner_brace inner b h2
  have hbrace : braceAt ('$' :: '{' :: (inner ++ '}' :: b)) = true := by
    simp only [braceAt, List.head?, List.drop, htw]
    simp [h1, List.length_append]
  simp only [subDollarBrace, hbrace, if_true, List.drop, htw]
  rw [drop_inner_brace]

/-- Claim C1: `sanitize_input` is a two-phase, non-rescanning escaping
pass translated from handler.py lines 57-65: it is the `$ARGUMENTS`
replacement followed by the `${...}` substitution; a text with no
occurrence of a pattern passes through each phase unchanged; each
occurrence of `$ARGUMENTS` after an occurrence-free prefix becomes
`\$ARGUMENTS` with the rest of the text untouched and the replacement not
rescanned; and each `${inner}` with nonempty `inner` free of `}` becomes
`\${inner}` likewise. -/
theorem C1_sanitize_two_phase_escaping :
    (∀ text, sanitize_input text =
        subDollarBrace (replaceAll argumentsToken escapedArguments text)) ∧
    (∀ s, occursIn argumentsToken s = false →
        replaceAll argumentsToken escapedArguments s = s) ∧
    (∀ a b, '$' ∉ a →
        replaceAll argumentsToken escapedArguments (a ++ argumentsToken ++ b) =
          a ++ escapedArguments ++ replaceAll argumentsToken escapedArguments b) ∧
    (∀ s, hasBraceToken s = false → subDollarBrace s = s) ∧
    (∀ a inner b, '$' ∉ a → inner ≠ [] → (∀ x ∈ inner, x ≠ '}') →
        subDollarBrace (a ++ '$' :: '{' :: (inner ++ '}' :: b)) =
          a ++ '\\' :: '$' :: '{' :: (inner ++ '}' :: subDollarBrace b)) := by
  refine ⟨fun _ => rfl, fun s h => replaceAll_of_not_occurs _ _ s h, ?_, ?_, ?_⟩
  · intro a b ha
    have h1 := replaceAll_append_left '$' ("ARGUMENTS".toList) escapedArguments a
      (argumentsToken ++ b) ha
    have h2 := replaceAll_at_occurrence '$' ("ARGUMENTS".toList) escapedArguments b
    simp only [argumentsToken, String.toList] at h1 h2 ⊢
    simp only [List.append_assoc]
    rw [h1, h2]
  · exact fun s h => subDollarBrace_of_no_token s h
  · intro a inner b ha h1 h2
    rw [subDollarBrace_append_left a _ ha,
      subDollarBrace_at_occurrence inner b h1 h2]

/-- Witness for C1 at concrete inputs. -/
theorem C1_sanitize_two_phase_escaping_witness :
    replaceAll argumentsToken escapedArguments
        ("ok ".toList ++ argumentsToken ++ "!".toList) =
      "ok ".toList ++ escapedArguments ++
        replaceAll argumentsToken escapedArguments "!".toList ∧
    subDollarBrace ("ok ".toList ++ '$' :: '{' :: ("HOME".toList ++ '}' :: "!".toList)) =
      "ok ".toList ++ '\\' :: '$' :: '{' :: ("HOME".toList ++ '}' :: subDollarBrace "!".toList) :=
  ⟨C1_sanitize_two_phase_escaping.2.2.1 "ok ".toList "!".toList (by decide),
   C1_sanitize_two_phase_escaping.2.2.2.2 "ok ".toList "HOME".toList "!".toList
     (by decide) (by decide) (by decide)⟩

theorem utf8Length_replicate_a (n : Nat) :
    utf8Length (List.replicate n 'a') = n := by
  have h : utf8CharLen 'a' = 1 := by decide
  simp [utf8Length, List.map_replicate, h, List.sum_replicate]

theorem process_some_of_le (reg : RegistryMap) (name : String)
    (cmd : CommandDefinition) (s : List Char)
    (h1 : registry_get reg name = some cmd)
    (h2 : ¬ MAX_INPUT_SIZE_BYTES < utf8Length s) :
    process_prompt reg name (some s) =
      .ok (if cmd.has_arguments then
             replaceAll argumentsToken (sanitize_input s) cmd.content
           else cmd.content) := by
  simp only [process_prompt, h1]
  rw [if_neg h2]
  by_cases h : cmd.has_arguments <;> simp [h]

theorem process_some_of_gt (reg : RegistryMap) (name : String)
    (cmd : CommandDefinition) (s : List Char)
    (h1 : registry_get reg name = some cmd)
    (h2 : MAX_INPUT_SIZE_BYTES < utf8Length s) :
    process_prompt reg name (some s) =
      .error (.inputTooLarge (utf8Length s) MAX_INPUT_SIZE_BYTES) := by
  simp only [process_prompt, h1]
  rw [if_pos h2]

theorem process_none (reg : RegistryMap) (name : String)
    (cmd : CommandDefinition) (h1 : registry_get reg name = some cmd) :
    process_prompt reg name none = .ok cmd.content := by
  simp only [process_prompt, h1]

/-- Claim C2: for a registered command with the placeholder and an input
passing the size check, `process_prompt` returns the body with every
literal `$ARGUMENTS` replaced by the sanitized input; on body
`Use $ARGUMENTS` and input `go to ${HOME} now` the result is
`Use go to \${HOME} now`. -/
theorem C2_sanitize_then_substitute :
    (∀ reg name cmd s, registry_get reg name = some cmd →
        cmd.has_arguments = true →
        utf8Length s ≤ MAX_INPUT_SIZE_BYTES →
        process_prompt reg name (some s) =
          .ok (replaceAll argumentsToken (sanitize_input s) cmd.content)) ∧
    process_prompt demoRegistry "use" (some "go to ${HOME} now".toList) =
      .ok "Use go to \\${HOME} now".toList := by
  constructor
  · intro reg name cmd s h1 h2 h3
    rw [process_some_of_le reg name cmd s h1 (by omega), h2]
    simp
  · have hlook : registry_get demoRegistry "use" = some demoUseCmd := by decide
    rw [process_some_of_le _ _ _ _ hlook (by decide)]
    simp [demoUseCmd, sanitize_input, replaceAll, subDollarBrace, braceAt,
      argumentsToken, escapedArguments]

/-- Witness for C2 at a concrete registry and input. -/
theorem C2_sanitize_then_substitute_witness :
    process_prompt demoRegistry "use" (some "hi".toList) =
      .ok (replaceAll argumentsToken (sanitize_input "hi".toList) demoUseCmd.content) :=
  C2_sanitize_then_substitute.1 demoRegistry "use" demoUseCmd "hi".toList
    (by decide) (by decide) (by decide)

/-- Counterexample to claim C5 as stated: a no-placeholder command does
not return its body for *any* input — an input of 102,401 UTF-8 bytes
makes `process_prompt` raise `InputTooLargeError` (the size check at
handler.py lines 98-101 runs before the placeholder check), so the input
is not "never an error". -/
theorem C5_counterexample :
    demoStaticCmd.has_arguments = false ∧
    registry_get demoRegistry "static" = some demoStaticCmd ∧
    process_prompt demoRegistry "static" (some (List.replicate 102401 'a')) =
      .error (.inputTooLarge 102401 102400) := by
  refine ⟨rfl, by decide, ?_⟩
  have h := process_some_of_gt demoRegistry "static" demoStaticCmd
    (List.replicate 102401 'a') (by decide)
    (by rw [utf8Length_replicate_a]; decide)
  rw [utf8Length_replicate_a] at h
  exact h

/-- Claim C5 as amended: a registered command without the placeholder
returns its body unchanged for absent input and for every provided input
that passes the size check (at most 102,400 UTF-8 bytes); such input is
silently ignored. -/
theorem C5_no_placeholder_ignores_input :
    ∀ reg name cmd, registry_get reg name = some cmd →
      cmd.has_arguments = false →
      process_prompt reg name none = .ok cmd.content ∧
      ∀ s, utf8Length s ≤ MAX_INPUT_SIZE_BYTES →
        process_prompt reg name (some s) = .ok cmd.content := by
  intro reg name cmd h1 h2
  refine ⟨process_none reg name cmd h1, fun s hs => ?_⟩
  rw [process_some_of_le reg name cmd s h1 (by omega), h2]
  simp

/-- Witness for the amended C5 at a concrete registry and inputs. -/
theorem C5_no_placeholder_ignores_input_witness :
    process_prompt demoRegistry "static" none = .ok demoStaticCmd.content ∧
    process_prompt demoRegistry "static" (some "ignored input".toList) =
      .ok demoStaticCmd.content :=
  ⟨(C5_no_placeholder_ignores_input demoRegistry "static" demoStaticCmd
      (by decide) (by decide)).1,
   (C5_no_placeholder_ignores_input demoRegistry "static" demoStaticCmd
      (by decide) (by decide)).2 "ignored input".toList (by decide)⟩

/-- Claim C6: for a registered command and a provided input,
`process_prompt` fails with `InputTooLargeError` exactly when the UTF-8
byte length of the input exceeds 102,400; any failure carries the actual
size and the maximum; exactly 102,400 bytes is accepted and 102,401 bytes
is rejected with sizes 102401 and 102400. -/
theorem C6_utf8_size_limit :
    ∀ reg name cmd s, registry_get reg name = some cmd →
      ((process_prompt reg name (some s) =
          .error (.inputTooLarge (utf8Length s) MAX_INPUT_SIZE_BYTES)) ↔
        MAX_INPUT_SIZE_BYTES < utf8Length s) ∧
      (∀ e, process_prompt reg name (some s) = .error e →
        MAX_INPUT_SIZE_BYTES < utf8Length s ∧
          e = .inputTooLarge (utf8Length s) MAX_INPUT_SIZE_BYTES) ∧
      (utf8Length s = 102400 →
        ∃ out, process_prompt reg name (some s) = .ok out) ∧
      (utf8Length s = 102401 →
        process_prompt reg name (some s) = .error (.inputTooLarge 102401 102400)) := by
  intro reg name cmd s h1
  by_cases hs : MAX_INPUT_SIZE_BYTES < utf8Length s
  · have h := process_some_of_gt reg name cmd s h1 hs
    refine ⟨⟨fun _ => hs, fun _ => h⟩, fun e he => ?_, fun h4 => ?_, fun h4 => ?_⟩
    · rw [h] at he
      injection he with h5
      exact ⟨hs, h5.symm⟩
    · exfalso
      rw [h4] at hs
      exact absurd hs (by decide)
    · rw [h4] at h
      exact h
  · have h := process_some_of_le reg name cmd s h1 hs
    refine ⟨⟨fun he => ?_, fun hlt => absurd hlt hs⟩, fun e he => ?_, fun _ => ?_, fun h4 => ?_⟩
    · rw [h] at he
      exact absurd he (by simp)
    · rw [h] at he
      exact absurd he (by simp)
    · exact ⟨_, h⟩
    · exfalso
      rw [h4] at hs
      exact hs (by decide)

/-- Witness for C6: an input of exactly 102,400 bytes is accepted. -/
theorem C6_utf8_size_limit_witness :
    ∃ out, process_prompt demoRegistry "static"
      (some (List.replicate 102400 'a')) = .ok out :=
  (C6_utf8_size_limit demoRegistry "static" demoStaticCmd
    (List.replicate 102400 'a') (by decide)).2.2.1 (utf8Length_replicate_a 102400)

theorem charsLe_total (a b : List Char) : charsLe a b = true ∨ charsLe b a = true := by
  induction a generalizing b with
  | nil => left; rfl
  | cons x xs ih =>
    cases b with
    | nil => right; rfl
    | cons y ys =>
      by_cases hxy : x = y
      · subst hxy
        rcases ih ys with h | h
        · left; simpa [charsLe] using h
        · right; simpa [charsLe] using h
      · rcases lt_or_gt_of_ne hxy with h | h
        · left; simp [charsLe, hxy, h]
        · right; simp [charsLe, Ne.symm hxy, h]

theorem charsLe_trans (a b c : List Char)
    (h1 : charsLe a b = true) (h2 : charsLe b c = true) : charsLe a c = true := by
  induction a generalizing b c with
  | nil => rfl
  | cons x xs ih =>
    cases b with
    | nil => simp [charsLe] at h1
    | cons y ys =>
      cases c with
      | nil => simp [charsLe] at h2
      | cons z zs =>
        by_cases hxy : x = y
        · subst hxy
          simp only [charsLe, if_pos rfl] at h1
          by_cases hyz : x = z
          · subst hyz
            simp only [charsLe, if_pos rfl] at h2 ⊢
            exact ih ys zs h1 h2
          · simp only [charsLe, if_neg hyz] at h2 ⊢
            exact h2
        · simp only [charsLe, if_neg hxy, decide_eq_true_eq] at h1
          by_cases hyz : y = z
          · subst hyz
            simp [charsLe, hxy, h1]
          · simp only [charsLe, if_neg hyz, decide_eq_true_eq] at h2
            have hxz : x < z := lt_trans h1 h2
            simp [charsLe, ne_of_lt hxz, hxz]

theorem strLe_total (a b : String) : strLe a b = true ∨ strLe b a = true :=
  charsLe_total a.toList b.toList

theorem strLe_trans (a b c : String)
    (h1 : strLe a b = true) (h2 : strLe b c = true) : strLe a c = true :=
  charsLe_trans a.toList b.toList c.toList h1 h2

theorem mem_insertSorted (s x : String) (l : List String) :
    x ∈ insertSorted s l ↔ x = s ∨ x ∈ l := by
  induction l with
  | nil => simp [insertSorted]
  | cons t ts ih =>
    by_cases h : strLe s t = true
    · simp [insertSorted, h]
    · simp only [insertSorted, if_neg h, List.mem_cons, ih]
      tauto

theorem pairwise_insertSorted (s : String) (l : List String)
    (h : List.Pairwise (fun a b => strLe a b = true) l) :
    List.Pairwise (fun a b => strLe a b = true) (insertSorted s l) := by
  induction l with
  | nil => simp [insertSorted]
  | cons t ts ih =>
    rw [List.pairwise_cons] at h
    by_cases hst : strLe s t = true
    · simp only [insertSorted, if_pos hst]
      rw [List.pairwise_cons]
      refine ⟨?_, List.pairwise_cons.mpr h⟩
      intro y hy
      rcases List.mem_cons.mp hy with rfl | hy
      · exact hst
      · exact strLe_trans s t y hst (h.1 y hy)
    · simp only [insertSorted, if_neg hst]
      rw [List.pairwise_cons]
      refine ⟨?_, ih h.2⟩
      intro y hy
      rcases (mem_insertSorted s y ts).mp hy with hy2 | hy2
      · subst hy2
        rcases strLe_total y t with hc | hc
        · exact absurd hc hst
        · exact hc
      · exact h.1 y hy2

theorem pairwise_sortStrings (l : List String) :
    List.Pairwise (fun a b => strLe a b = true) (sortStrings l) := by
  induction l with
  | nil => exact List.Pairwise.nil
  | cons s ss ih => exact pairwise_insertSorted s (sortStrings ss) ih

theorem mem_sortStrings (x : String) (l : List String) :
    x ∈ sortStrings l ↔ x ∈ l := by
  induction l with
  | nil => simp [sortStrings]
  | cons s ss ih =>
    simp only [sortStrings, mem_insertSorted, ih, List.mem_cons]

/-- Claim C8: for an unregistered name, `process_prompt` fails with
`CommandNotFoundError` carrying the list of registered names sorted by the
code-point lexicographic order (`strLe`), and that list is exactly the set
of registered names. -/
theorem C8_not_found_carries_sorted_names :
    ∀ reg name input, registry_get reg name = none →
      process_prompt reg name input =
          .error (.commandNotFound name (list_commands reg)) ∧
      List.Pairwise (fun a b => strLe a b = true) (list_commands reg) ∧
      ∀ s, s ∈ list_commands reg ↔ s ∈ reg.map Prod.fst := by
  intro reg name input h
  refine ⟨?_, pairwise_sortStrings _, fun s => mem_sortStrings s _⟩
  simp only [process_prompt, h]

/-- Witness for C8 at a concrete registry and missing name. -/
theorem C8_not_found_carries_sorted_names_witness :
    process_prompt demoRegistry "zzz" none =
      .error (.commandNotFound "zzz" (list_commands demoRegistry)) :=
  (C8_not_found_carries_sorted_names demoRegistry "zzz" none (by decide)).1

theorem lookup_of_mem_nodup (m : RegistryMap) (n : String) (v : CommandDefinition)
    (hnd : (m.map Prod.fst).Nodup) (hm : (n, v) ∈ m) :
    List.lookup n m = some v := by
  induction m with
  | nil => cases hm
  | cons p rest ih =>
    obtain ⟨k, w⟩ := p
    rw [List.map_cons, List.nodup_cons] at hnd
    rcases List.mem_cons.mp hm with h | h
    · obtain ⟨rfl, rfl⟩ := Prod.mk.injEq .. ▸ h
      simp [List.lookup]
    · have hnk : n ≠ k := by
        intro rfl
        exact hnd.1 (List.mem_map.mpr ⟨(n, v), h, rfl⟩)
      simp only [List.lookup, beq_eq_false_iff_ne.mpr hnk]
      exact ih hnd.2 h

theorem lookup_of_not_mem (m : RegistryMap) (n : String)
    (h : n ∉ m.map Prod.fst) : List.lookup n m = none := by
  induction m with
  | nil => rfl
  | cons p rest ih =>
    obtain ⟨k, w⟩ := p
    rw [List.map_cons, List.mem_cons] at h
    push_neg at h
    simp only [List.lookup, beq_eq_false_iff_ne.mpr h.1]
    exact ih h.2

theorem mem_of_mem_interleaving (xs ys l : List RegOp)
    (hl : l ∈ interleavings xs ys) : ∀ op ∈ l, op ∈ xs ∨ op ∈ ys := by
  induction xs generalizing ys l with
  | nil =>
    simp only [interleavings, List.mem_singleton] at hl
    subst hl
    exact fun op hop => Or.inr hop
  | cons x xs ih =>
    induction ys generalizing l with
    | nil =>
      simp only [interleavings, List.mem_singleton] at hl
      subst hl
      exact fun op hop => Or.inl hop
    | cons y ys ihy =>
      simp only [interleavings, List.mem_append, List.mem_map] at hl
      rcases hl with ⟨l2, hl2, rfl⟩ | ⟨l2, hl2, rfl⟩
      · intro op hop
        rcases List.mem_cons.mp hop with rfl | hop
        · exact Or.inl (List.mem_cons_self _ _)
        · rcases ih (y :: ys) l2 hl2 op hop with h | h
          · exact Or.inl (List.mem_cons_of_mem _ h)
          · exact Or.inr h
      · intro op hop
        rcases List.mem_cons.mp hop with rfl | hop
        · exact Or.inr (List.mem_cons_self _ _)
        · rcases ihy l2 hl2 op hop with h | h
          · exact Or.inl h
          · exact Or.inr (List.mem_cons_of_mem _ h)

theorem runStates_mem_of_ops (m : RegistryMap) (l : List RegOp) :
    ∀ st, (∀ op ∈ l, op.isRead = true ∨ op = RegOp.updateAll m) →
      ∀ s ∈ runStates st l, s = st ∨ s = m := by
  induction l with
  | nil =>
    intro st _ s hs
    rcases List.mem_cons.mp hs with rfl | h
    · exact Or.inl rfl
    · cases h
  | cons op rest ih =>
    intro st hops s hs
    rcases List.mem_cons.mp hs with rfl | hs
    · exact Or.inl rfl
    · have hrest : ∀ o ∈ rest, o.isRead = true ∨ o = RegOp.updateAll m :=
        fun o ho => hops o (List.mem_cons_of_mem op ho)
      rcases hops op (List.mem_cons_self op rest) with hread | hupd
      · have hstep : regStep st op = st := by
          cases op with
          | updateAll _ => simp [RegOp.isRead] at hread
          | readGet _ => rfl
          | readList => rfl
          | readCount => rfl
        rw [hstep] at hs
        exact ih st hrest s hs
      · subst hupd
        have hstep : regStep st (RegOp.updateAll m) = m := rfl
        rw [hstep] at hs
        rcases ih m hrest s hs with h | h
        · exact Or.inr h
        · exact Or.inr h

/-- Claim C3: `update_all` installs the given map as the complete new
contents — afterwards `get` returns exactly the records of `m` (and `none`
off `m`), `count` equals the size of `m` — and, because every registry
operation is one serialized step under the single lock, a reader
interleaved with the replace only ever observes the entirely-old or
entirely-new map, never a mixture. -/
theorem C3_update_all_atomic_replacement :
    ∀ m : RegistryMap, (m.map Prod.fst).Nodup →
      (∀ st n v, (n, v) ∈ m → registry_get (update_all st m) n = some v) ∧
      (∀ st n, n ∉ m.map Prod.fst → registry_get (update_all st m) n = none) ∧
      (∀ st, registry_count (update_all st m) = m.length) ∧
      (∀ st ops l, l ∈ interleavings [RegOp.updateAll m] ops →
        (∀ op ∈ ops, op.isRead = true) →
        ∀ s ∈ runStates st l, s = st ∨ s = update_all st m) := by
  intro m hnd
  refine ⟨fun st n v hm => lookup_of_mem_nodup m n v hnd hm,
    fun st n hn => lookup_of_not_mem m n hn,
    fun st => rfl,
    fun st ops l hl hreads s hs => ?_⟩
  refine runStates_mem_of_ops m l st (fun op hop => ?_) s hs
  rcases mem_of_mem_interleaving [RegOp.updateAll m] ops l hl op hop with h | h
  · right
    simpa using h
  · left
    exact hreads op h

/-- Witness for C3 at a concrete map, old state and reader trace. -/
theorem C3_update_all_atomic_replacement_witness :
    registry_get (update_all [("static", demoStaticCmd)] [("use", demoUseCmd)]) "use" =
        some demoUseCmd ∧
    registry_get (update_all [("static", demoStaticCmd)] [("use", demoUseCmd)]) "static" =
        none ∧
    registry_count (update_all [("static", demoStaticCmd)] [("use", demoUseCmd)]) = 1 :=
  ⟨(C3_update_all_atomic_replacement [("use", demoUseCmd)] (by decide)).1
      [("static", demoStaticCmd)] "use" demoUseCmd (by decide),
   (C3_update_all_atomic_replacement [("use", demoUseCmd)] (by decide)).2.1
      [("static", demoStaticCmd)] "static" (by decide),
   (C3_update_all_atomic_replacement [("use", demoUseCmd)] (by decide)).2.2.1
      [("static", demoStaticCmd)]⟩

theorem load_all_loop_append (acc : RegistryMap) (xs ys : List SrcFile) :
    load_all_loop acc (xs ++ ys) = load_all_loop (load_all_loop acc xs) ys := by
  induction xs generalizing acc with
  | nil => rfl
  | cons f fs ih =>
    simp only [List.cons_append, load_all_loop]
    cases parse_command_file f with
    | ok d => exact ih (dictInsert d.name d acc)
    | error e => exact ih acc

theorem mem_keys_dictInsert (k n : String) (v : CommandDefinition) (m : RegistryMap) :
    n ∈ (dictInsert k v m).map Prod.fst ↔ n = k ∨ n ∈ m.map Prod.fst := by
  induction m with
  | nil => simp [dictInsert]
  | cons p rest ih =>
    obtain ⟨k1, v1⟩ := p
    by_cases h : k1 = k
    · subst h
      simp [dictInsert]
    · simp only [dictInsert, if_neg h, List.map_cons, List.mem_cons, ih]
      tauto

theorem mem_keys_load_all_loop (fs : List SrcFile) (n : String) :
    ∀ acc, n ∈ (load_all_loop acc fs).map Prod.fst ↔
      n ∈ acc.map Prod.fst ∨
        ∃ f ∈ fs, ∃ d, parse_command_file f = .ok d ∧ d.name = n := by
  induction fs with
  | nil => simp [load_all_loop]
  | cons f fs ih =>
    intro acc
    cases hp : parse_command_file f with
    | ok d =>
      simp only [load_all_loop, hp, ih, mem_keys_dictInsert, List.mem_cons]
      constructor
      · rintro ((rfl | h) | ⟨f2, hf2, d2, hp2, hn⟩)
        · exact Or.inr ⟨f, Or.inl rfl, d, hp, rfl⟩
        · exact Or.inl h
        · exact Or.inr ⟨f2, Or.inr hf2, d2, hp2, hn⟩
      · rintro (h | ⟨f2, (rfl | hf2), d2, hp2, hn⟩)
        · exact Or.inl (Or.inr h)
        · rw [hp] at hp2
          injection hp2 with h2
          subst h2
          exact Or.inl (Or.inl hn.symm)
        · exact Or.inr ⟨f2, hf2, d2, hp2, hn⟩
    | error e =>
      simp only [load_all_loop, hp, ih, List.mem_cons]
      constructor
      · rintro (h | ⟨f2, hf2, d2, hp2, hn⟩)
        · exact Or.inl h
        · exact Or.inr ⟨f2, Or.inr hf2, d2, hp2, hn⟩
      · rintro (h | ⟨f2, (rfl | hf2), d2, hp2, hn⟩)
        · exact Or.inl h
        · rw [hp] at hp2
          cases hp2
        · exact Or.inr ⟨f2, hf2, d2, hp2, hn⟩

/-- Claim C7: a file whose parse fails is skipped — removing it from the
directory does not change the result at all, so it never prevents any
other file from loading — and the resulting map (a plain value: no parse
failure escapes `load_all_commands`, whose own `except CommandParseError`
arm, together with the conversion of every exception inside
`parse_command_file`, swallows them all) has exactly the names of the
successfully parsed files as keys. -/
theorem C7_parse_failures_are_skipped :
    (∀ xs ys (f : SrcFile) (e : CommandParseError),
        parse_command_file f = .error e →
        load_all_commands (xs ++ f :: ys) = load_all_commands (xs ++ ys)) ∧
    (∀ files n, n ∈ (load_all_commands files).map Prod.fst ↔
        ∃ f ∈ files, ∃ d, parse_command_file f = .ok d ∧ d.name = n) := by
  constructor
  · intro xs ys f e hf
    simp only [load_all_commands, load_all_loop_append, load_all_loop, hf]
  · intro files n
    rw [load_all_commands, mem_keys_load_all_loop]
    simp

/-- Witness for C7: a malformed file next to a valid one changes nothing,
and the valid file's name is loaded. -/
theorem C7_parse_failures_are_skipped_witness :
    load_all_commands [demoGoodFile, demoBadFile] = load_all_commands [demoGoodFile] ∧
    ("sp.specify" ∈ (load_all_commands [demoGoodFile, demoBadFile]).map Prod.fst ↔
      ∃ f ∈ [demoGoodFile, demoBadFile], ∃ d,
        parse_command_file f = .ok d ∧ d.name = "sp.specify") :=
  ⟨C7_parse_failures_are_skipped.1 [demoGoodFile] [] demoBadFile
      ⟨"/cmds/broken.md", "Missing required field description"⟩ (by decide),
   C7_parse_failures_are_skipped.2 [demoGoodFile, demoBadFile] "sp.specify"⟩

theorem validate_ok_pattern (s n : String)
    (h : validate_command_name s = .ok n) :
    matchesNamePattern n.toList = true := by
  simp only [validate_command_name] at h
  split_ifs at h with h1 h2 h3
  cases h
  have h5 : matchesNamePattern (pyStrip s.toList) = true := by simpa using h3
  exact h5

theorem parse_ok_name_valid (f : SrcFile) (d : CommandDefinition)
    (h : parse_command_file f = .ok d) :
    matchesNamePattern d.name.toList = true := by
  cases hf : f.front with
  | ok meta =>
    cases hv : validate_command_name f.stem with
    | ok n =>
      simp only [parse_command_file, hf, hv] at h
      injection h with h2
      subst h2
      exact validate_ok_pattern f.stem n hv
    | error m => simp [parse_command_file, hf, hv] at h
  | metaError m => simp [parse_command_file, hf] at h
  | yamlError m => simp [parse_command_file, hf] at h
  | loadError m => simp [parse_command_file, hf] at h

theorem mem_dictInsert (k : String) (v : CommandDefinition) (m : RegistryMap)
    (p : String × CommandDefinition) :
    p ∈ dictInsert k v m → p = (k, v) ∨ p ∈ m := by
  induction m with
  | nil =>
    intro h
    simp only [dictInsert, List.mem_singleton] at h
    exact Or.inl h
  | cons q rest ih =>
    intro h
    obtain ⟨k1, v1⟩ := q
    by_cases hk : k1 = k
    · subst hk
      simp only [dictInsert, if_true, eq_self_iff_true, List.mem_cons] at h
      rcases h with h | h
      · exact Or.inl h
      · exact Or.inr (List.mem_cons_of_mem _ h)
    · simp only [dictInsert, hk, if_false, List.mem_cons] at h
      rcases h with h | h
      · exact Or.inr (List.mem_cons.mpr (Or.inl h))
      · rcases ih h with h2 | h2
        · exact Or.inl h2
        · exact Or.inr (List.mem_cons_of_mem _ h2)

theorem load_all_loop_inv (P : String → CommandDefinition → Prop)
    (hP : ∀ f d, parse_command_file f = .ok d → P d.name d)
    (fs : List SrcFile) :
    ∀ acc, (∀ k d, (k, d) ∈ acc → P k d) →
      ∀ k d, (k, d) ∈ load_all_loop acc fs → P k d := by
  induction fs with
  | nil => exact fun acc hacc k d hm => hacc k d hm
  | cons f fs ih =>
    intro acc hacc k d hm
    cases hp : parse_command_file f with
    | ok d0 =>
      simp only [load_all_loop, hp] at hm
      refine ih (dictInsert d0.name d0 acc) ?_ k d hm
      intro k1 d1 h1
      rcases mem_dictInsert _ _ _ _ h1 with h2 | h2
      · obtain ⟨rfl, rfl⟩ := Prod.mk.injEq .. ▸ h2
        exact hP f _ hp
      · exact hacc k1 d1 h2
    | error e =>
      simp only [load_all_loop, hp] at hm
      exact ih acc hacc k d hm

/-- Claim C10: every key in the map returned by `load_all_commands` equals
the `name` field of its record, and that name matches the validated
pattern — it starts with a letter, every following character is a letter,
digit, dot, underscore or hyphen, and no character is a path separator. -/
theorem C10_registry_names_validated :
    ∀ files k d, (k, d) ∈ load_all_commands files →
      k = d.name ∧
      (∃ c rest, d.name.toList = c :: rest ∧ isLetter c = true ∧
        ∀ x ∈ rest, isNameChar x = true) ∧
      ∀ x ∈ d.name.toList, x ≠ '/' ∧ x ≠ '\\' := by
  intro files k d hm
  have key := load_all_loop_inv
    (fun k1 d1 => k1 = d1.name ∧ matchesNamePattern d1.name.toList = true)
    (fun f d0 hp => ⟨rfl, parse_ok_name_valid f d0 hp⟩)
    files [] (fun k1 d1 h => by cases h) k d hm
  obtain ⟨hk, hpat⟩ := key
  refine ⟨hk, ?_, ?_⟩
  · cases hn : d.name.toList with
    | nil => rw [hn] at hpat; simp [matchesNamePattern] at hpat
    | cons c rest =>
      rw [hn] at hpat
      simp only [matchesNamePattern, Bool.and_eq_true, List.all_eq_true] at hpat
      exact ⟨c, rest, rfl, hpat.1, hpat.2⟩
  · intro x hx
    cases hn : d.name.toList with
    | nil => rw [hn] at hx; cases hx
    | cons c rest =>
      rw [hn] at hpat hx
      simp only [matchesNamePattern, Bool.and_eq_true, List.all_eq_true] at hpat
      have hxc : isNameChar x = true := by
        rcases List.mem_cons.mp hx with rfl | hx2
        · simp [isNameChar, hpat.1]
        · exact hpat.2 x hx2
      constructor
      · rintro rfl
        exact absurd hxc (by decide)
      · rintro rfl
        exact absurd hxc (by decide)

/-- Witness for C10 at the concrete loaded directory. -/
theorem C10_registry_names_validated_witness :
    "sp.specify" = demoLoadedSpecify.name ∧
    (∃ c rest, demoLoadedSpecify.name.toList = c :: rest ∧ isLetter c = true ∧
      ∀ x ∈ rest, isNameChar x = true) ∧
    ∀ x ∈ demoLoadedSpecify.name.toList, x ≠ '/' ∧ x ≠ '\\' :=
  C10_registry_names_validated [demoGoodFile] "sp.specify" demoLoadedSpecify (by decide)

/-- Claim C9: the three-character substring `${}` is left unchanged by the
`${...}` pass (the regular expression needs at least one non-`}` character
between the braces), so `sanitize_input` maps `${}` to itself and such a
substring reaches the substituted output unescaped. -/
theorem C9_empty_braces_pass_through :
    (∀ rest : List Char, subDollarBrace ('$' :: '{' :: '}' :: rest) =
        '$' :: '{' :: '}' :: subDollarBrace rest) ∧
    sanitize_input ['$', '{', '}'] = ['$', '{', '}'] ∧
    process_prompt demoRegistry "use" (some ['$', '{', '}']) =
      .ok ("Use ".toList ++ ['$', '{', '}']) := by
  have hkey : ∀ rest : List Char, subDollarBrace ('$' :: '{' :: '}' :: rest) =
      '$' :: '{' :: '}' :: subDollarBrace rest := by
    intro rest
    have h1 : braceAt ('$' :: '{' :: '}' :: rest) = false := by
      simp [braceAt, List.takeWhile]
    have h2 : braceAt ('{' :: '}' :: rest) = false :=
      braceAt_cons_of_ne _ _ (by decide)
    have h3 : braceAt ('}' :: rest) = false :=
      braceAt_cons_of_ne _ _ (by decide)
    simp only [subDollarBrace, h1, h2, h3, Bool.false_eq_true, if_false]
  refine ⟨hkey, ?_, ?_⟩
  · simp [sanitize_input, replaceAll, subDollarBrace, braceAt,
      argumentsToken, escapedArguments]
  · have hlook : registry_get demoRegistry "use" = some demoUseCmd := by decide
    rw [process_some_of_le _ _ _ _ hlook (by decide)]
    simp [demoUseCmd, sanitize_input, replaceAll, subDollarBrace, braceAt,
      argumentsToken, escapedArguments]

theorem watcher_burst_loop (w t1 : Nat) (ts : List Nat) :
    ∀ k F, t1 ≤ k →
      (∀ t ∈ ts, k < t ∧ t < t1 + w) →
      List.Pairwise (fun a b => a < b) ts →
      runWatcher w { lastReload := t1, timer := some (k + w), fires := F } ts
        = { lastReload := t1, timer := some (ts.getLastD k + w), fires := F } := by
  induction ts with
  | nil => intro k F _ _ _; rfl
  | cons t ts ih =>
    intro k F hk hall hpw
    have h1 := hall t (List.mem_cons_self t ts)
    have hnotdue : ¬ k + w ≤ t := by omega
    have hnotimm : ¬ t1 + w ≤ t := by omega
    obtain ⟨hhead, htail⟩ := List.pairwise_cons.mp hpw
    have hstep : handleEvent w { lastReload := t1, timer := some (k + w), fires := F } t
        = { lastReload := t1, timer := some (t + w), fires := F } := by
      simp [handleEvent, fireDueTimer, hnotdue, hnotimm]
    rw [runWatcher, hstep,
      ih t F (le_trans hk (le_of_lt h1.1))
        (fun t2 ht2 => ⟨hhead t2 ht2, (hall t2 (List.mem_cons_of_mem _ ht2)).2⟩)
        htail,
      List.getLastD_cons]

/-- Counterexample to claim C4 as stated: with debounce window 100, five
qualifying events at 1000, 1050, 1100, 1150, 1200 — consecutive gaps of
50, each closer than the window, the first arriving a full window after
the last reload — make the handler invoke the callback three times
(at 1000, 1100 and 1200), not at most twice: the immediate-reload branch
of `_trigger_immediate_reload` fires again as soon as one window has
elapsed since the last reload, even in the middle of a burst. -/
theorem C4_counterexample :
    (1050 - 1000 < 100 ∧ 1100 - 1050 < 100 ∧ 1150 - 1100 < 100 ∧
      1200 - 1150 < 100 ∧ 0 + 100 ≤ 1000) ∧
    (watcherRun 100 0 [1000, 1050, 1100, 1150, 1200]).fires = [1000, 1100, 1200] ∧
    ¬ (watcherRun 100 0 [1000, 1050, 1100, 1150, 1200]).fires.length ≤ 2 := by
  refine ⟨?_, ?_, ?_⟩ <;> decide

/-- Claim C4 as amended: a single qualifying event arriving at least `w`
after the last reload invokes the callback immediately; and a burst of
events that all arrive within less than `w` of the *first* event of the
burst invokes the callback at most twice — once immediately at the first
event and once, when the burst has a tail, `w` after the last event of the
burst.  (Spacing each gap below `w` is not enough: see the
counterexample.) -/
theorem C4_debounce_coalescing :
    ∀ w L t1 (ts : List Nat), 0 < w → L + w ≤ t1 →
      List.Pairwise (fun a b => a < b) (t1 :: ts) →
      (∀ t ∈ ts, t < t1 + w) →
      (watcherRun w L (t1 :: ts)).fires =
        (if ts.isEmpty then [t1] else [t1, ts.getLastD 0 + w]) ∧
      (watcherRun w L (t1 :: ts)).fires.length ≤ 2 := by
  intro w L t1 ts hw hfirst hpw hburst
  obtain ⟨hhead, htail⟩ := List.pairwise_cons.mp hpw
  have hstep1 : handleEvent w { lastReload := L, timer := none, fires := [] } t1
      = { lastReload := t1, timer := none, fires := [t1] } := by
    simp [handleEvent, fireDueTimer, hfirst]
  cases ts with
  | nil =>
    constructor
    · simp [watcherRun, runWatcher, hstep1, flushTimer]
    · simp [watcherRun, runWatcher, hstep1, flushTimer]
  | cons t2 ts2 =>
    have h2 := hburst t2 (List.mem_cons_self _ _)
    have ht12 : t1 < t2 := hhead t2 (List.mem_cons_self _ _)
    obtain ⟨hh2, ht2⟩ := List.pairwise_cons.mp htail
    have hstep2 : handleEvent w { lastReload := t1, timer := none, fires := [t1] } t2
        = { lastReload := t1, timer := some (t2 + w), fires := [t1] } := by
      simp [handleEvent, fireDueTimer, show ¬ t1 + w ≤ t2 by omega]
    have hloop := watcher_burst_loop w t1 ts2 t2 [t1] (le_of_lt ht12)
      (fun t ht => ⟨hh2 t ht, hburst t (List.mem_cons_of_mem _ ht)⟩) ht2
    have hrun : runWatcher w { lastReload := L, timer := none, fires := [] }
        (t1 :: t2 :: ts2)
        = { lastReload := t1, timer := some (ts2.getLastD t2 + w), fires := [t1] } := by
      rw [runWatcher, hstep1, runWatcher, hstep2]
      exact hloop
    have hfires : (watcherRun w L (t1 :: t2 :: ts2)).fires = [t1, ts2.getLastD t2 + w] := by
      rw [watcherRun, hrun]
      rfl
    constructor
    · rw [hfires, List.getLastD_cons]
      simp
    · rw [hfires]
      simp

/-- Witness for the amended C4 at a concrete window and burst. -/
theorem C4_debounce_coalescing_witness :
    (watcherRun 100 0 [100, 150, 190]).fires = [100, 290] ∧
    (watcherRun 100 0 [100, 150, 190]).fires.length ≤ 2 := by
  have h := C4_debounce_coalescing 100 0 100 [150, 190] (by decide) (by decide)
    (by decide) (by decide)
  refine ⟨?_, h.2⟩
  rw [h.1]
  decide
